import Mathlib

/-!
Verification of the analysis logic of `one-drug-database-analysis.py`
(notebooks/diffable_python), recast — as the specification does — into three
pure components: the reference-data loader/filter (`bnf_mapping`), the
mapping fan-out analyzer (`fanout`, built from `Counter`), and the
concentration analyzer (`summarize`, `capturedShare`, `topN`, built from
pandas `quantile` / `sort_values`).

Numeric magnitudes (items counts, net costs) are modelled as rationals;
pandas' linear-interpolation quantile is reproduced exactly over ℚ.
-/

namespace ODD

/-- One row of the BNF mapping spreadsheet after column renaming: the
`changed` flag is kept as its raw cell text (the code compares it to "Y"). -/
structure CodeMappingRecord where
  old_code : String
  old_name : String
  new_code : String
  new_name : String
  changed : String
deriving DecidableEq, Repr

/-- Direction of the fan-out analysis: the notebook computes
`Counter(bnf_mapping['old_code'])` and `Counter(bnf_mapping['new_code'])`. -/
inductive Direction where
  | old_to_new : Direction
  | new_to_old : Direction
deriving DecidableEq, Repr

/-- The grouping field for a direction (the `Counter` argument column). -/
def sourceOf : Direction → CodeMappingRecord → String
  | Direction.old_to_new, r => r.old_code
  | Direction.new_to_old, r => r.new_code

/-- The mapped-to field for a direction. -/
def targetOf : Direction → CodeMappingRecord → String
  | Direction.old_to_new, r => r.new_code
  | Direction.new_to_old, r => r.old_code

/-- `collections.Counter` over a list: an association list assigning each
distinct element its number of occurrences. -/
def counter {α : Type} [DecidableEq α] (xs : List α) : List (α × ℕ) :=
  xs.dedup.map (fun k => (k, xs.count k))

/-- The fan-out distribution the notebook derives in each direction:
`counts` models `old_code_counts = Counter(bnf_mapping['old_code'])`
(respectively `new_code_counts`), and `histogram` models
`sorted(Counter(old_code_counts.values()).items())`. -/
structure FanoutDistribution where
  counts : List (String × ℕ)
  histogram : List (ℕ × ℕ)
deriving DecidableEq, Repr

/-- Line 143–144 / 195–196 of the notebook: count rows per source code with
`Counter`, then histogram those per-source counts and sort the histogram
items ascending.  (`Counter` counts column cells, i.e. rows, with
multiplicity — not distinct target codes.) -/
def fanout (records : List CodeMappingRecord) (dir : Direction) : FanoutDistribution :=
  let counts := counter (records.map (sourceOf dir))
  { counts := counts
    histogram := List.insertionSort (fun a b => a.1 ≤ b.1) (counter (counts.map Prod.snd)) }

/-- The sort key order of `bnf_mapping.sort_values(['old_code', 'new_code'])`:
lexicographic on the pair `(old_code, new_code)`. -/
def mappingLE (a b : CodeMappingRecord) : Prop :=
  a.old_code < b.old_code ∨ (a.old_code = b.old_code ∧ a.new_code ≤ b.new_code)

instance : DecidableRel mappingLE := by
  intro a b
  unfold mappingLE
  infer_instance

instance : IsTotal CodeMappingRecord mappingLE where
  total := by
    intro a b
    rcases lt_trichotomy a.old_code b.old_code with h | h | h
    · exact Or.inl (Or.inl h)
    · rcases le_total a.new_code b.new_code with h2 | h2
      · exact Or.inl (Or.inr ⟨h, h2⟩)
      · exact Or.inr (Or.inr ⟨h.symm, h2⟩)
    · exact Or.inr (Or.inl h)

instance : IsTrans CodeMappingRecord mappingLE where
  trans := by
    rintro a b c (hab | ⟨hab, hab2⟩) (hbc | ⟨hbc, hbc2⟩)
    · exact Or.inl (lt_trans hab hbc)
    · exact Or.inl (hbc ▸ hab)
    · exact Or.inl (hab ▸ hbc)
    · exact Or.inr ⟨hab.trans hbc, le_trans hab2 hbc2⟩

/-- The row-keeping condition of lines 121–125: `changed == 'Y'`, and neither
`old_code` nor `new_code` starts with the excluded chapter code "19". -/
def keepRow (r : CodeMappingRecord) : Bool :=
  r.changed == "Y" && !(r.old_code.startsWith "19") && !(r.new_code.startsWith "19")

/-- Lines 121–127 of the notebook (the loader/filter after the column rename):
keep rows with `changed == 'Y'`, drop rows whose `old_code` or `new_code` is in
chapter 19, and sort by `(old_code, new_code)`. -/
def bnf_mapping (rows : List CodeMappingRecord) : List CodeMappingRecord :=
  List.insertionSort mappingLE (rows.filter keepRow)

/-- A raw spreadsheet table as pandas sees it: named columns and rows of
cells aligned with the column list. -/
structure RawTable where
  cols : List String
  rows : List (List String)
deriving DecidableEq, Repr

/-- The column rename map of lines 113–119. -/
def colRenameMap : List (String × String) :=
  [("Current BNF Code", "old_code"),
   ("MDR: BNF Description", "old_name"),
   ("dm+d: BNF Description", "new_name"),
   ("New BNF Code", "new_code"),
   ("BNF Code Changed (Y/N)", "changed")]

/-- `DataFrame.rename(columns=...)` semantics: each label present in the map
is replaced, labels absent from the map are kept, and map keys that match no
existing label are silently ignored (pandas' default `errors='ignore'`). -/
def renameCols (m : List (String × String)) (cols : List String) : List String :=
  cols.map (fun c => (m.lookup c).getD c)

/-- Position of a column label, as `df[label]` resolves it; `none` models the
`KeyError` pandas raises when the label is absent. -/
def findCol (cols : List String) (c : String) : Option ℕ :=
  cols.findIdx? (fun x => x == c)

/-- Cell of a row at a column position. -/
def cell (row : List String) (i : ℕ) : String :=
  row.getD i ""

/-- Row order used by `sort_values(['old_code', 'new_code'])` at the table
level, given the two column positions. -/
def rowLE (io inew : ℕ) (r1 r2 : List String) : Prop :=
  cell r1 io < cell r2 io ∨ (cell r1 io = cell r2 io ∧ cell r1 inew ≤ cell r2 inew)

instance (io inew : ℕ) : DecidableRel (rowLE io inew) := by
  intro a b
  unfold rowLE
  infer_instance

instance (io inew : ℕ) : IsTotal (List String) (rowLE io inew) where
  total := by
    intro a b
    rcases lt_trichotomy (cell a io) (cell b io) with h | h | h
    · exact Or.inl (Or.inl h)
    · rcases le_total (cell a inew) (cell b inew) with h2 | h2
      · exact Or.inl (Or.inr ⟨h, h2⟩)
      · exact Or.inr (Or.inr ⟨h.symm, h2⟩)
    · exact Or.inr (Or.inl h)

instance (io inew : ℕ) : IsTrans (List String) (rowLE io inew) where
  trans := by
    rintro a b c (hab | ⟨hab, hab2⟩) (hbc | ⟨hbc, hbc2⟩)
    · exact Or.inl (lt_trans hab hbc)
    · exact Or.inl (hbc ▸ hab)
    · exact Or.inl (hab ▸ hbc)
    · exact Or.inr ⟨hab.trans hbc, le_trans hab2 hbc2⟩

/-- Lines 113–127 at the level of a raw table, with the failure behaviour the
code actually has: the rename never fails (missing source labels are skipped),
and the first failing step is the first column access — `bnf_mapping['changed']`,
then `bnf_mapping['old_code']`, then `bnf_mapping['new_code']` — raising
`KeyError` when the accessed label is absent after the rename. -/
def loadMappingTable (t : RawTable) : Except String RawTable :=
  let cols := renameCols colRenameMap t.cols
  match findCol cols "changed" with
  | none => Except.error "KeyError: changed"
  | some ic =>
    let rows1 := t.rows.filter (fun row => cell row ic == "Y")
    match findCol cols "old_code" with
    | none => Except.error "KeyError: old_code"
    | some io =>
      let rows2 := rows1.filter (fun row => !(cell row io).startsWith "19")
      match findCol cols "new_code" with
      | none => Except.error "KeyError: new_code"
      | some inew =>
        let rows3 := rows2.filter (fun row => !(cell row inew).startsWith "19")
        Except.ok { cols := cols, rows := List.insertionSort (rowLE io inew) rows3 }

/-- A magnitude series as the notebook builds one: identifiers (BNF codes)
paired with a numeric magnitude (items or net_cost), modelled over ℚ. -/
abbrev MagnitudeSeries : Type := List (String × ℚ)

/-- Piecewise-linear interpolation into a (sorted) value list at fractional
position `h`, exactly as numpy/pandas index a sorted array for the linear
quantile: lower index `⌊h⌋`, upper index `⌊h⌋ + 1` clipped to the array. -/
def interp (s : List ℚ) (h : ℚ) : ℚ :=
  let i : ℕ := (Int.floor h).toNat
  let lo := s.getD i 0
  let hi := s.getD (i + 1) lo
  lo + (h - (i : ℚ)) * (hi - lo)

/-- `Series.quantile(q)` with the default linear interpolation: sort the
values ascending and interpolate at position `q * (n - 1)`. -/
def quantile (xs : List ℚ) (q : ℚ) : ℚ :=
  interp (List.insertionSort (fun a b => a ≤ b) xs) (q * ((xs.length : ℚ) - 1))

/-- Lines 269–270 / 282–283: the share of the total captured by the top
`p` tail — `s[s > s.quantile(1 - p)].sum() / s.sum()`. -/
def capturedShare (series : MagnitudeSeries) (p : ℚ) : ℚ :=
  ((series.map Prod.snd).filter
    (fun v => decide (quantile (series.map Prod.snd) (1 - p) < v))).sum /
    (series.map Prod.snd).sum

/-- The concentration summary the spec derives from lines 262–264 and
269–270: total magnitude, percentage of the grand total, and the captured
share at each requested percentile. -/
structure ConcentrationSummary where
  total : ℚ
  percent_of_grand_total : ℚ
  by_percentile : List (ℚ × ℚ)

/-- The concentration analyzer: `total` is `s.sum()`,
`percent_of_grand_total` is `s.sum() / grand_total * 100` (lines 262–264),
and `by_percentile` records the loop of lines 269–270. -/
def summarize (series : MagnitudeSeries) (grand_total : ℚ) (ps : List ℚ) :
    ConcentrationSummary :=
  { total := (series.map Prod.snd).sum
    percent_of_grand_total := (series.map Prod.snd).sum / grand_total * 100
    by_percentile := ps.map (fun p => (p, capturedShare series p)) }

/-- Descending-magnitude order used by
`df.sort_values(['items'], ascending=False)`. -/
def magGE (a b : String × ℚ) : Prop := b.2 ≤ a.2

instance : DecidableRel magGE := by
  intro a b
  unfold magGE
  infer_instance

instance : IsTotal (String × ℚ) magGE where
  total := by
    intro a b
    rcases le_total a.2 b.2 with h | h
    · exact Or.inr h
    · exact Or.inl h

instance : IsTrans (String × ℚ) magGE where
  trans := by
    intro a b c hab hbc
    exact le_trans hbc hab

/-- Lines 277 / 290: `df.sort_values([metric], ascending=False).head(n)`,
returning the identifiers.  The sort is modelled as stable (numpy's sort
falls back to insertion sort on small arrays and never consults the
identifier), so ties keep their order in the series. -/
def topN (series : MagnitudeSeries) (n : ℕ) : List String :=
  ((List.insertionSort magGE series).take n).map Prod.fst

/-! ### Helper lemmas -/

theorem lookup_map_key {α β : Type} [DecidableEq α] (f : α → β) (ks : List α) (s : α) :
    (ks.map (fun k => (k, f k))).lookup s = if s ∈ ks then some (f s) else none := by
  induction ks with
  | nil => simp [List.lookup]
  | cons k t ih =>
    by_cases h : s = k
    · subst h
      simp [List.lookup]
    · have hbe : (s == k) = false := beq_false_of_ne h
      simp [List.lookup, hbe, ih, h]

theorem sum_map_mul_count_dedup (l : List ℕ) :
    (l.dedup.map (fun x => x * l.count x)).sum = l.sum := by
  induction l with
  | nil => simp
  | cons a t ih =>
    have key : ∀ x, (a :: t).count x = t.count x + (if x = a then 1 else 0) := by
      intro x
      by_cases hx : x = a
      · subst hx
        simp [List.count_cons]
      · simp [List.count_cons, hx]
    have hsplit :
        ((a :: t).dedup.map (fun x => x * (a :: t).count x)).sum =
          ((a :: t).dedup.map (fun x => x * t.count x)).sum +
            ((a :: t).dedup.map (fun x => x * (if x = a then 1 else 0))).sum := by
      simp_rw [key, Nat.mul_add, List.sum_map_add]
    have hfirst : ((a :: t).dedup.map (fun x => x * t.count x)).sum = t.sum := by
      by_cases ha : a ∈ t
      · rw [List.dedup_cons_of_mem ha]
        exact ih
      · rw [List.dedup_cons_of_not_mem ha, List.map_cons, List.sum_cons,
          List.count_eq_zero.2 ha, Nat.mul_zero, Nat.zero_add]
        exact ih
    have hsecond : ((a :: t).dedup.map (fun x => x * (if x = a then 1 else 0))).sum = a := by
      have hma : a ∈ (a :: t).dedup := List.mem_dedup.2 (List.mem_cons_self a t)
      have := List.sum_map_eq_nsmul_single a (fun x => x * (if x = a then 1 else 0))
        (l := (a :: t).dedup) (fun b hb _ => by simp [hb])
      rw [this, List.count_dedup]
      simp [List.mem_cons_self a t]
    rw [hsplit, hfirst, hsecond, List.sum_cons, Nat.add_comm]

theorem sum_filter_nonneg (l : List ℚ) (p : ℚ → Bool) (hnn : ∀ x ∈ l, 0 ≤ x) :
    0 ≤ (l.filter p).sum :=
  List.sum_nonneg fun x hx => hnn x (List.mem_of_mem_filter hx)

theorem sum_filter_le_sum (l : List ℚ) (p : ℚ → Bool) (hnn : ∀ x ∈ l, 0 ≤ x) :
    (l.filter p).sum ≤ l.sum := by
  induction l with
  | nil => simp
  | cons x t ih =>
    have hx := hnn x (List.mem_cons_self x t)
    have ht : ∀ y ∈ t, 0 ≤ y := fun y hy => hnn y (List.mem_cons_of_mem _ hy)
    by_cases h : p x
    · simp only [List.filter_cons, h, if_true, List.sum_cons]
      exact add_le_add_left (ih ht) x
    · simp only [List.filter_cons, h, if_false, List.sum_cons]
      calc (t.filter p).sum ≤ t.sum := ih ht
        _ ≤ x + t.sum := le_add_of_nonneg_left hx

theorem sum_filter_lt_mono (l : List ℚ) (c1 c2 : ℚ) (hc : c2 ≤ c1)
    (hnn : ∀ x ∈ l, 0 ≤ x) :
    (l.filter (fun v => decide (c1 < v))).sum ≤ (l.filter (fun v => decide (c2 < v))).sum := by
  induction l with
  | nil => simp
  | cons x t ih =>
    have hx := hnn x (List.mem_cons_self x t)
    have ht : ∀ y ∈ t, 0 ≤ y := fun y hy => hnn y (List.mem_cons_of_mem _ hy)
    by_cases h1 : c1 < x
    · have h2 : c2 < x := lt_of_le_of_lt hc h1
      simp only [List.filter_cons, decide_eq_true h1, decide_eq_true h2, if_true, List.sum_cons]
      exact add_le_add_left (ih ht) x
    · by_cases h2 : c2 < x
      · simp only [List.filter_cons, decide_eq_false h1, decide_eq_true h2, if_false, if_true,
          List.sum_cons]
        calc (t.filter (fun v => decide (c1 < v))).sum
            ≤ (t.filter (fun v => decide (c2 < v))).sum := ih ht
          _ ≤ x + (t.filter (fun v => decide (c2 < v))).sum := le_add_of_nonneg_left hx
      · simp only [List.filter_cons, decide_eq_false h1, decide_eq_false h2, if_false]
        exact ih ht

theorem count_filter_eq {α : Type} [DecidableEq α] (p : α → Bool) (l : List α) (a : α) :
    (l.filter p).count a = if p a then l.count a else 0 := by
  by_cases h : p a
  · rw [List.count_filter h, if_pos h]
  · rw [if_neg h]
    exact List.count_eq_zero.2 (fun hmem => h ((List.mem_filter.1 hmem).2))

theorem findCol_eq_none_iff (cols : List String) (c : String) :
    findCol cols c = none ↔ c ∉ cols := by
  unfold findCol
  rw [List.findIdx?_eq_none_iff]
  constructor
  · intro h hc
    have := h c hc
    simp at this
  · intro h x hx
    by_cases hxc : x = c
    · exact absurd (hxc ▸ hx) h
    · exact beq_false_of_ne hxc

/-! ### Quantile interpolation lemmas -/

theorem getD_sorted_mono {s : List ℚ} (hs : s.Sorted (fun a b : ℚ => a ≤ b))
    {i j : ℕ} (hij : i ≤ j) (hj : j < s.length) (d d' : ℚ) :
    s.getD i d ≤ s.getD j d' := by
  have hi : i < s.length := lt_of_le_of_lt hij hj
  rw [List.getD_eq_get _ _ hi, List.getD_eq_get _ _ hj]
  rcases Nat.eq_or_lt_of_le hij with heq | hlt
  · subst heq
    exact le_of_eq rfl
  · exact hs.rel_get_of_lt (Fin.mk_lt_mk.2 hlt)

theorem floor_toNat_le {h : ℚ} (h0 : 0 ≤ h) : (((Int.floor h).toNat : ℕ) : ℚ) ≤ h := by
  have hnn : 0 ≤ Int.floor h := Int.floor_nonneg.2 h0
  have hcast : (((Int.floor h).toNat : ℕ) : ℚ) = ((Int.floor h : ℤ) : ℚ) := by
    exact_mod_cast congrArg (fun z : ℤ => (z : ℚ)) (Int.toNat_of_nonneg hnn)
  rw [hcast]
  exact Int.floor_le h

theorem lt_floor_toNat_add_one {h : ℚ} (h0 : 0 ≤ h) :
    h < (((Int.floor h).toNat : ℕ) : ℚ) + 1 := by
  have hnn : 0 ≤ Int.floor h := Int.floor_nonneg.2 h0
  have hcast : (((Int.floor h).toNat : ℕ) : ℚ) = ((Int.floor h : ℤ) : ℚ) := by
    exact_mod_cast congrArg (fun z : ℤ => (z : ℚ)) (Int.toNat_of_nonneg hnn)
  rw [hcast]
  exact Int.lt_floor_add_one h

theorem floor_toNat_lt_length {h : ℚ} {n : ℕ} (h0 : 0 ≤ h) (hub : h ≤ (n : ℚ) - 1) :
    (Int.floor h).toNat < n := by
  have hle : (((Int.floor h).toNat : ℕ) : ℚ) ≤ (n : ℚ) - 1 := le_trans (floor_toNat_le h0) hub
  have hle2 : (((Int.floor h).toNat : ℕ) : ℚ) + 1 ≤ (n : ℚ) := by linarith
  have hnat : (Int.floor h).toNat + 1 ≤ n := by exact_mod_cast hle2
  omega

theorem interp_mono {s : List ℚ} (hs : s.Sorted (fun a b : ℚ => a ≤ b))
    {h1 h2 : ℚ} (h1nn : 0 ≤ h1) (h12 : h1 ≤ h2) (h2ub : h2 ≤ (s.length : ℚ) - 1) :
    interp s h1 ≤ interp s h2 := by
  have h2nn : 0 ≤ h2 := le_trans h1nn h12
  have h1ub : h1 ≤ (s.length : ℚ) - 1 := le_trans h12 h2ub
  have l1 := floor_toNat_le h1nn
  have u1 := lt_floor_toNat_add_one h1nn
  have l2 := floor_toNat_le h2nn
  have u2 := lt_floor_toNat_add_one h2nn
  have hi1n : (Int.floor h1).toNat < s.length := floor_toNat_lt_length h1nn h1ub
  have hi2n : (Int.floor h2).toNat < s.length := floor_toNat_lt_length h2nn h2ub
  have hii : (Int.floor h1).toNat ≤ (Int.floor h2).toNat :=
    Int.toNat_le_toNat (Int.floor_le_floor h12)
  show s.getD (Int.floor h1).toNat 0 +
      (h1 - ((Int.floor h1).toNat : ℚ)) *
        (s.getD ((Int.floor h1).toNat + 1) (s.getD (Int.floor h1).toNat 0) -
          s.getD (Int.floor h1).toNat 0) ≤
    s.getD (Int.floor h2).toNat 0 +
      (h2 - ((Int.floor h2).toNat : ℚ)) *
        (s.getD ((Int.floor h2).toNat + 1) (s.getD (Int.floor h2).toNat 0) -
          s.getD (Int.floor h2).toNat 0)
  rcases Nat.eq_or_lt_of_le hii with heq | hlt
  · rw [← heq] at *
    by_cases hnext : (Int.floor h1).toNat + 1 < s.length
    · have hlohi : s.getD (Int.floor h1).toNat 0 ≤
          s.getD ((Int.floor h1).toNat + 1) (s.getD (Int.floor h1).toNat 0) :=
        getD_sorted_mono hs (Nat.le_succ _) hnext _ _
      have hmul := mul_le_mul_of_nonneg_right
        (sub_le_sub_right h12 (((Int.floor h1).toNat : ℕ) : ℚ)) (sub_nonneg.2 hlohi)
      linarith
    · have hdef : s.getD ((Int.floor h1).toNat + 1) (s.getD (Int.floor h1).toNat 0)
          = s.getD (Int.floor h1).toNat 0 :=
        List.getD_eq_default _ _ (Nat.le_of_not_lt hnext)
      rw [hdef]
      simp
  · have h1n : (Int.floor h1).toNat + 1 ≤ (Int.floor h2).toNat := hlt
    have hi1succ : (Int.floor h1).toNat + 1 < s.length := lt_of_le_of_lt h1n hi2n
    have hlo1hi1 : s.getD (Int.floor h1).toNat 0 ≤
        s.getD ((Int.floor h1).toNat + 1) (s.getD (Int.floor h1).toNat 0) :=
      getD_sorted_mono hs (Nat.le_succ _) hi1succ _ _
    have hstep : s.getD ((Int.floor h1).toNat + 1) (s.getD (Int.floor h1).toNat 0) ≤
        s.getD (Int.floor h2).toNat 0 :=
      getD_sorted_mono hs h1n hi2n _ _
    have hup : s.getD (Int.floor h1).toNat 0 +
        (h1 - ((Int.floor h1).toNat : ℚ)) *
          (s.getD ((Int.floor h1).toNat + 1) (s.getD (Int.floor h1).toNat 0) -
            s.getD (Int.floor h1).toNat 0) ≤
        s.getD ((Int.floor h1).toNat + 1) (s.getD (Int.floor h1).toNat 0) := by
      nlinarith [mul_nonneg (by linarith : (0:ℚ) ≤ 1 - (h1 - ((Int.floor h1).toNat : ℚ)))
        (sub_nonneg.2 hlo1hi1)]
    by_cases hnext2 : (Int.floor h2).toNat + 1 < s.length
    · have hlo2hi2 : s.getD (Int.floor h2).toNat 0 ≤
          s.getD ((Int.floor h2).toNat + 1) (s.getD (Int.floor h2).toNat 0) :=
        getD_sorted_mono hs (Nat.le_succ _) hnext2 _ _
      nlinarith [mul_nonneg (sub_nonneg.2 l2) (sub_nonneg.2 hlo2hi2)]
    · have hdef : s.getD ((Int.floor h2).toNat + 1) (s.getD (Int.floor h2).toNat 0)
          = s.getD (Int.floor h2).toNat 0 :=
        List.getD_eq_default _ _ (Nat.le_of_not_lt hnext2)
      rw [hdef]
      nlinarith [hup, hstep]

theorem quantile_mono (xs : List ℚ) {q1 q2 : ℚ} (hne : xs ≠ [])
    (h0 : 0 ≤ q1) (h12 : q1 ≤ q2) (h1 : q2 ≤ 1) :
    quantile xs q1 ≤ quantile xs q2 := by
  have hn : 1 ≤ xs.length := List.length_pos.2 hne
  have hn1 : (0:ℚ) ≤ (xs.length : ℚ) - 1 := by
    have : (1:ℚ) ≤ (xs.length : ℚ) := by exact_mod_cast hn
    linarith
  have hlen : (List.insertionSort (fun a b : ℚ => a ≤ b) xs).length = xs.length :=
    List.length_insertionSort _ _
  have hs : (List.insertionSort (fun a b : ℚ => a ≤ b) xs).Sorted (fun a b : ℚ => a ≤ b) :=
    List.sorted_insertionSort _ _
  unfold quantile
  apply interp_mono hs
  · exact mul_nonneg h0 hn1
  · exact mul_le_mul_of_nonneg_right h12 hn1
  · rw [hlen]
    nlinarith

/-! ### Fan-out analyzer: claims C3, C4, C7 -/

/-- A record used to exhibit the behaviour of `Counter` on duplicated rows. -/
def rDup : CodeMappingRecord :=
  { old_code := "A", old_name := "n", new_code := "X", new_name := "m", changed := "Y" }

/-- Claim C3 (counterexample): on a record list containing an exact-duplicate
(source, target) pair — two identical rows mapping "A" to "X" — the fan-out
count of "A" is the number of rows (2), not the number of distinct targets
(1), and deduplicating the list changes the count. -/
theorem fanout_duplicate_rows_counterexample :
    (fanout [rDup, rDup] Direction.old_to_new).counts = [("A", 2)] ∧
    (fanout [rDup] Direction.old_to_new).counts = [("A", 1)] ∧
    (([rDup, rDup].map fun r =>
        (sourceOf Direction.old_to_new r, targetOf Direction.old_to_new r)).dedup).length
      = 1 := by
  refine ⟨?_, ?_, ?_⟩ <;> with_unfolding_all decide

/-- Claim C3 (amended): `fanout` groups the records by the source field of
the chosen direction and assigns each source code the number of records in
its group — duplicate (source, target) pairs are counted with multiplicity,
because the notebook applies `Counter` to the raw source-code column. -/
theorem fanout_counts_rows_with_multiplicity (records : List CodeMappingRecord)
    (dir : Direction) (s : String) :
    (fanout records dir).counts.lookup s =
      if s ∈ records.map (sourceOf dir) then some ((records.map (sourceOf dir)).count s)
      else none := by
  have h := lookup_map_key (fun k => (records.map (sourceOf dir)).count k)
    ((records.map (sourceOf dir)).dedup) s
  simp only [fanout, counter] at *
  rw [h]
  by_cases hs : s ∈ records.map (sourceOf dir)
  · simp [hs, List.mem_dedup]
  · simp [hs, List.mem_dedup]

/-- Claim C4 (counterexample): with two identical rows mapping "A" to "X",
the histogram-weighted sum `Σ count · num_sources` is 2 (the number of
records), while the number of distinct (source, target) pairs is 1. -/
theorem fanout_histogram_weighted_sum_counterexample :
    ((fanout [rDup, rDup] Direction.old_to_new).histogram.map (fun q => q.1 * q.2)).sum = 2 ∧
    (([rDup, rDup].map fun r =>
        (sourceOf Direction.old_to_new r, targetOf Direction.old_to_new r)).dedup).length
      = 1 ∧ (2 : ℕ) ≠ 1 := by
  refine ⟨?_, ?_, ?_⟩ <;> with_unfolding_all decide

/-- Claim C4 (amended): for every mapping list and direction, the sum of the
histogram's values equals the number of distinct source codes, and the
histogram-weighted sum `Σ count · num_sources` equals the total number of
records (which equals the number of distinct (source, target) pairs only
when the list is free of exact-duplicate pairs). -/
theorem fanout_histogram_sums (records : List CodeMappingRecord) (dir : Direction) :
    ((fanout records dir).histogram.map Prod.snd).sum
        = ((records.map (sourceOf dir)).dedup).length ∧
    ((fanout records dir).histogram.map (fun q => q.1 * q.2)).sum = records.length := by
  set ks := records.map (sourceOf dir) with hks
  have hp : (fanout records dir).histogram.Perm (counter ((counter ks).map Prod.snd)) := by
    simp only [fanout]
    exact List.perm_insertionSort _ _
  have hperm : ∀ (f : ℕ × ℕ → ℕ),
      ((fanout records dir).histogram.map f).sum
        = ((counter ((counter ks).map Prod.snd)).map f).sum := by
    intro f
    exact List.Perm.sum_eq (List.Perm.map f hp)
  constructor
  · rw [hperm Prod.snd]
    set vs := (counter ks).map Prod.snd with hvs
    have h1 : ((counter vs).map Prod.snd).sum = (vs.dedup.map (fun v => vs.count v)).sum := by
      simp only [counter, List.map_map]
      rfl
    rw [h1, List.sum_map_count_dedup_eq_length]
    simp [hvs, counter]
  · rw [hperm (fun q => q.1 * q.2)]
    set vs := (counter ks).map Prod.snd with hvs
    have h1 : ((counter vs).map (fun q => q.1 * q.2)).sum
        = (vs.dedup.map (fun v => v * vs.count v)).sum := by
      simp only [counter, List.map_map]
      rfl
    rw [h1, sum_map_mul_count_dedup]
    have h2 : vs.sum = (ks.dedup.map (fun k => ks.count k)).sum := by
      simp only [hvs, counter, List.map_map]
      rfl
    rw [h2, List.sum_map_count_dedup_eq_length]
    simp [hks]

/-- Claim C7 (counterexample): `fanout` applied to the empty records list
returns the empty fan-out distribution — it does not fail; the notebook has
no `EmptyInputError` (nor any emptiness check) anywhere. -/
theorem fanout_empty_input_counterexample :
    (fanout [] Direction.old_to_new).counts = [] ∧
    (fanout [] Direction.old_to_new).histogram = [] := by
  constructor <;> with_unfolding_all decide

/-- Claim C7 (amended): on an empty records list, `fanout` succeeds and
returns the empty distribution (empty per-source counts and empty
histogram) in both directions, rather than failing with `EmptyInputError`. -/
theorem fanout_empty_returns_empty (dir : Direction) :
    fanout [] dir = { counts := [], histogram := [] } := by
  cases dir <;> with_unfolding_all decide

/-! ### Reference-data loader/filter: claims C2, C8 -/

/-- Claim C2: `bnf_mapping` returns exactly the input rows whose `changed`
flag is "Y" and whose `old_code` and `new_code` both do not start with the
excluded prefix "19" (each with its input multiplicity), sorted ascending by
the pair `(old_code, new_code)`. -/
theorem bnf_mapping_exact_rows_sorted (rows : List CodeMappingRecord) (r : CodeMappingRecord) :
    (bnf_mapping rows).count r =
      (if r.changed == "Y" && !(r.old_code.startsWith "19") && !(r.new_code.startsWith "19")
        then rows.count r else 0) ∧
    (bnf_mapping rows).Sorted mappingLE := by
  constructor
  · have hperm := List.perm_insertionSort mappingLE (rows.filter keepRow)
    have hcount : (bnf_mapping rows).count r = (rows.filter keepRow).count r :=
      List.Perm.count_eq hperm r
    rw [hcount, count_filter_eq]
    rfl
  · exact List.sorted_insertionSort mappingLE (rows.filter keepRow)

/-- Claim C8 (counterexample): a table that lacks the expected source column
"MDR: BNF Description" (and "dm+d: BNF Description") is loaded successfully —
pandas `rename` silently skips absent labels, so no `SchemaError` is raised. -/
theorem load_mapping_missing_column_counterexample :
    "MDR: BNF Description" ∉
      (RawTable.mk ["Current BNF Code", "New BNF Code", "BNF Code Changed (Y/N)"] []).cols ∧
    loadMappingTable (RawTable.mk ["Current BNF Code", "New BNF Code", "BNF Code Changed (Y/N)"] [])
      = Except.ok (RawTable.mk ["old_code", "new_code", "changed"] []) := by
  constructor
  · with_unfolding_all decide
  · with_unfolding_all rfl

/-- Claim C8 (amended): the rename step never fails on a missing source
column; `load_mapping` fails — with the key-lookup error of the first column
access, not a schema check — exactly when one of the columns it actually
uses downstream (`changed`, `old_code`, `new_code`) is absent after the
rename, and succeeds otherwise, even when name columns are missing. -/
theorem load_mapping_error_iff_used_column_missing (t : RawTable) :
    (∃ e, loadMappingTable t = Except.error e) ↔
      ("changed" ∉ renameCols colRenameMap t.cols ∨
       "old_code" ∉ renameCols colRenameMap t.cols ∨
       "new_code" ∉ renameCols colRenameMap t.cols) := by
  unfold loadMappingTable
  rcases h1 : findCol (renameCols colRenameMap t.cols) "changed" with _ | ic
  · simp only [h1]
    constructor
    · intro _
      exact Or.inl ((findCol_eq_none_iff _ _).1 h1)
    · intro _
      exact ⟨"KeyError: changed", rfl⟩
  · rcases h2 : findCol (renameCols colRenameMap t.cols) "old_code" with _ | io
    · simp only [h1, h2]
      constructor
      · intro _
        exact Or.inr (Or.inl ((findCol_eq_none_iff _ _).1 h2))
      · intro _
        exact ⟨"KeyError: old_code", rfl⟩
    · rcases h3 : findCol (renameCols colRenameMap t.cols) "new_code" with _ | inew
      · simp only [h1, h2, h3]
        constructor
        · intro _
          exact Or.inr (Or.inr ((findCol_eq_none_iff _ _).1 h3))
        · intro _
          exact ⟨"KeyError: new_code", rfl⟩
      · simp only [h1, h2, h3]
        constructor
        · rintro ⟨e, he⟩
          exact absurd he (by simp)
        · rintro (hm | hm | hm)
          · exact absurd ((findCol_eq_none_iff _ _).2 hm) (by simp [h1])
          · exact absurd ((findCol_eq_none_iff _ _).2 hm) (by simp [h2])
          · exact absurd ((findCol_eq_none_iff _ _).2 hm) (by simp [h3])

/-! ### Concentration analyzer: claims C1, C5, C6, C9, C10 -/

theorem quantile_const {xs : List ℚ} {c : ℚ} (hne : xs ≠ []) (hall : ∀ v ∈ xs, v = c)
    {q : ℚ} (h0 : 0 ≤ q) (h1 : q ≤ 1) : quantile xs q = c := by
  have hlen : (List.insertionSort (fun a b : ℚ => a ≤ b) xs).length = xs.length :=
    List.length_insertionSort _ _
  have hmem : ∀ v ∈ List.insertionSort (fun a b : ℚ => a ≤ b) xs, v = c := fun v hv =>
    hall v ((List.perm_insertionSort _ xs).mem_iff.1 hv)
  have hnlen : 1 ≤ xs.length := List.length_pos.2 hne
  have hn1 : (0:ℚ) ≤ (xs.length : ℚ) - 1 := by
    have : (1:ℚ) ≤ (xs.length : ℚ) := by exact_mod_cast hnlen
    linarith
  have hh0 : 0 ≤ q * ((xs.length : ℚ) - 1) := mul_nonneg h0 hn1
  have hhub : q * ((xs.length : ℚ) - 1) ≤ (xs.length : ℚ) - 1 := by nlinarith
  have hi : (Int.floor (q * ((xs.length : ℚ) - 1))).toNat <
      (List.insertionSort (fun a b : ℚ => a ≤ b) xs).length := by
    rw [hlen]
    exact floor_toNat_lt_length hh0 hhub
  have hlo : (List.insertionSort (fun a b : ℚ => a ≤ b) xs).getD
      (Int.floor (q * ((xs.length : ℚ) - 1))).toNat 0 = c := by
    rw [List.getD_eq_get _ _ hi]
    exact hmem _ (List.get_mem _ _ _)
  show (List.insertionSort (fun a b : ℚ => a ≤ b) xs).getD
        (Int.floor (q * ((xs.length : ℚ) - 1))).toNat 0 +
      (q * ((xs.length : ℚ) - 1) - (((Int.floor (q * ((xs.length : ℚ) - 1))).toNat : ℕ) : ℚ)) *
        ((List.insertionSort (fun a b : ℚ => a ≤ b) xs).getD
            ((Int.floor (q * ((xs.length : ℚ) - 1))).toNat + 1)
            ((List.insertionSort (fun a b : ℚ => a ≤ b) xs).getD
              (Int.floor (q * ((xs.length : ℚ) - 1))).toNat 0) -
          (List.insertionSort (fun a b : ℚ => a ≤ b) xs).getD
            (Int.floor (q * ((xs.length : ℚ) - 1))).toNat 0) = c
  by_cases hsucc : (Int.floor (q * ((xs.length : ℚ) - 1))).toNat + 1 <
      (List.insertionSort (fun a b : ℚ => a ≤ b) xs).length
  · have hhi : (List.insertionSort (fun a b : ℚ => a ≤ b) xs).getD
        ((Int.floor (q * ((xs.length : ℚ) - 1))).toNat + 1)
        ((List.insertionSort (fun a b : ℚ => a ≤ b) xs).getD
          (Int.floor (q * ((xs.length : ℚ) - 1))).toNat 0) = c := by
      rw [List.getD_eq_get _ _ hsucc]
      exact hmem _ (List.get_mem _ _ _)
    rw [hhi, hlo]
    ring
  · have hhi : (List.insertionSort (fun a b : ℚ => a ≤ b) xs).getD
        ((Int.floor (q * ((xs.length : ℚ) - 1))).toNat + 1)
        ((List.insertionSort (fun a b : ℚ => a ≤ b) xs).getD
          (Int.floor (q * ((xs.length : ℚ) - 1))).toNat 0) =
        (List.insertionSort (fun a b : ℚ => a ≤ b) xs).getD
          (Int.floor (q * ((xs.length : ℚ) - 1))).toNat 0 :=
      List.getD_eq_default _ _ (Nat.le_of_not_lt hsucc)
    rw [hhi, hlo]
    ring

/-- Captured shares are quotients of a filtered sum by the full sum, hence
land in `[0, 1]` when the magnitudes are non-negative and the total is
positive. -/
theorem capturedShare_unit_interval (series : MagnitudeSeries) (p : ℚ)
    (hnn : ∀ v ∈ series.map Prod.snd, 0 ≤ v) (hpos : 0 < (series.map Prod.snd).sum) :
    0 ≤ capturedShare series p ∧ capturedShare series p ≤ 1 := by
  unfold capturedShare
  constructor
  · exact div_nonneg (sum_filter_nonneg _ _ hnn) (le_of_lt hpos)
  · rw [div_le_one hpos]
    exact sum_filter_le_sum _ _ hnn

/-- Claim C1: for every requested percentile `p`, the summary's
`by_percentile` entry at `p` is exactly the sum of the magnitudes strictly
greater than the `(1-p)` linear-interpolation quantile of the magnitude
values, divided by the sum of all magnitudes. -/
theorem summarize_reports_tail_share (series : MagnitudeSeries) (g p : ℚ) (ps : List ℚ)
    (hne : series ≠ []) (h0 : 0 < p) (h1 : p ≤ 1) (hp : p ∈ ps) :
    (p, ((series.map Prod.snd).filter
          (fun v => decide (quantile (series.map Prod.snd) (1 - p) < v))).sum /
        (series.map Prod.snd).sum) ∈ (summarize series g ps).by_percentile := by
  simp only [summarize]
  exact List.mem_map.2 ⟨p, hp, rfl⟩

/-- Claim C1 (witness): the series {a:10, b:30, c:60} with percentiles
{1/100, 1/5} instantiates the theorem. -/
theorem summarize_reports_tail_share_witness :
    ([("a", (10:ℚ)), ("b", 30), ("c", 60)] : MagnitudeSeries) ≠ [] ∧
    (0:ℚ) < 1/100 ∧ (1:ℚ)/100 ≤ 1 ∧ (1:ℚ)/100 ∈ [(1:ℚ)/100, 1/5] ∧
    ((1:ℚ)/100,
      ((([("a", (10:ℚ)), ("b", 30), ("c", 60)] : MagnitudeSeries).map Prod.snd).filter
          (fun v => decide (quantile
            (([("a", (10:ℚ)), ("b", 30), ("c", 60)] : MagnitudeSeries).map Prod.snd)
            (1 - 1/100) < v))).sum /
        (([("a", (10:ℚ)), ("b", 30), ("c", 60)] : MagnitudeSeries).map Prod.snd).sum) ∈
      (summarize [("a", (10:ℚ)), ("b", 30), ("c", 60)] 1000 [(1:ℚ)/100, 1/5]).by_percentile :=
  ⟨by with_unfolding_all decide, by with_unfolding_all decide, by with_unfolding_all decide,
    by with_unfolding_all decide,
    summarize_reports_tail_share [("a", (10:ℚ)), ("b", 30), ("c", 60)] 1000 (1/100)
      [(1:ℚ)/100, 1/5] (by with_unfolding_all decide) (by with_unfolding_all decide)
      (by with_unfolding_all decide) (by with_unfolding_all decide)⟩

/-- Claim C5: on a non-empty series of non-negative magnitudes, the captured
share is monotone in the percentile: a larger top-slice captures at least as
much of the total. -/
theorem capturedShare_monotone (series : MagnitudeSeries) (p1 p2 : ℚ)
    (hne : series ≠ []) (hnn : ∀ v ∈ series.map Prod.snd, 0 ≤ v)
    (h0 : 0 < p1) (h12 : p1 < p2) (h2 : p2 ≤ 1) :
    capturedShare series p1 ≤ capturedShare series p2 := by
  have hvne : series.map Prod.snd ≠ [] := by simpa using hne
  have hcut : quantile (series.map Prod.snd) (1 - p2) ≤
      quantile (series.map Prod.snd) (1 - p1) :=
    quantile_mono _ hvne (by linarith) (by linarith) (by linarith)
  have hsum := sum_filter_lt_mono (series.map Prod.snd) _ _ hcut hnn
  unfold capturedShare
  by_cases hz : (series.map Prod.snd).sum = 0
  · rw [hz, div_zero, div_zero]
  · have hpos : 0 < (series.map Prod.snd).sum :=
      lt_of_le_of_ne (List.sum_nonneg hnn) (Ne.symm hz)
    exact (div_le_div_right hpos).2 hsum

/-- Claim C5 (witness): the series {a:10, b:30, c:60} with percentiles
1/100 < 1/5 instantiates the monotonicity theorem. -/
theorem capturedShare_monotone_witness :
    ([("a", (10:ℚ)), ("b", 30), ("c", 60)] : MagnitudeSeries) ≠ [] ∧
    (∀ v ∈ ([("a", (10:ℚ)), ("b", 30), ("c", 60)] : MagnitudeSeries).map Prod.snd, 0 ≤ v) ∧
    (0:ℚ) < 1/100 ∧ (1:ℚ)/100 < 1/5 ∧ (1:ℚ)/5 ≤ 1 ∧
    capturedShare [("a", (10:ℚ)), ("b", 30), ("c", 60)] (1/100) ≤
      capturedShare [("a", (10:ℚ)), ("b", 30), ("c", 60)] (1/5) :=
  ⟨by with_unfolding_all decide, by with_unfolding_all decide, by with_unfolding_all decide,
    by with_unfolding_all decide, by with_unfolding_all decide,
    capturedShare_monotone [("a", (10:ℚ)), ("b", 30), ("c", 60)] (1/100) (1/5)
      (by with_unfolding_all decide) (by with_unfolding_all decide)
      (by with_unfolding_all decide) (by with_unfolding_all decide)
      (by with_unfolding_all decide)⟩

/-- Claim C9: with non-negative magnitudes and positive total, every
captured share the summary reports is in `[0, 1]`; the percentage of the
grand total equals `100 * total / grand_total` and is in `[0, 100]` whenever
`0 ≤ total ≤ grand_total`. -/
theorem summarize_bounds (series : MagnitudeSeries) (g : ℚ) (ps : List ℚ)
    (hnn : ∀ v ∈ series.map Prod.snd, 0 ≤ v) (hpos : 0 < (series.map Prod.snd).sum) :
    (∀ pr ∈ (summarize series g ps).by_percentile, 0 ≤ pr.2 ∧ pr.2 ≤ 1) ∧
    (summarize series g ps).percent_of_grand_total = 100 * (series.map Prod.snd).sum / g ∧
    ((series.map Prod.snd).sum ≤ g →
      0 ≤ (summarize series g ps).percent_of_grand_total ∧
      (summarize series g ps).percent_of_grand_total ≤ 100) := by
  refine ⟨?_, ?_, ?_⟩
  · intro pr hmem
    simp only [summarize, List.mem_map] at hmem
    obtain ⟨q, _, heq⟩ := hmem
    have hsh : pr.2 = capturedShare series q := by
      rw [← heq]
    rw [hsh]
    exact capturedShare_unit_interval series q hnn hpos
  · show (series.map Prod.snd).sum / g * 100 = 100 * (series.map Prod.snd).sum / g
    ring
  · intro hle
    have hg : 0 ≤ g := le_trans (le_of_lt hpos) hle
    constructor
    · show 0 ≤ (series.map Prod.snd).sum / g * 100
      exact mul_nonneg (div_nonneg (le_of_lt hpos) hg) (by norm_num)
    · show (series.map Prod.snd).sum / g * 100 ≤ 100
      have hdiv : (series.map Prod.snd).sum / g ≤ 1 := div_le_one_of_le hle hg
      nlinarith

/-- Claim C9 (witness): the series {a:10, b:30, c:60} against grand total
1000 instantiates the bounds theorem. -/
theorem summarize_bounds_witness :
    (∀ v ∈ ([("a", (10:ℚ)), ("b", 30), ("c", 60)] : MagnitudeSeries).map Prod.snd, 0 ≤ v) ∧
    (0:ℚ) < (([("a", (10:ℚ)), ("b", 30), ("c", 60)] : MagnitudeSeries).map Prod.snd).sum ∧
    ((∀ pr ∈ (summarize [("a", (10:ℚ)), ("b", 30), ("c", 60)] 1000
        [(1:ℚ)/100, 1/5]).by_percentile, 0 ≤ pr.2 ∧ pr.2 ≤ 1) ∧
      (summarize [("a", (10:ℚ)), ("b", 30), ("c", 60)] 1000
          [(1:ℚ)/100, 1/5]).percent_of_grand_total =
        100 * (([("a", (10:ℚ)), ("b", 30), ("c", 60)] : MagnitudeSeries).map Prod.snd).sum
          / 1000 ∧
      ((([("a", (10:ℚ)), ("b", 30), ("c", 60)] : MagnitudeSeries).map Prod.snd).sum ≤ 1000 →
        0 ≤ (summarize [("a", (10:ℚ)), ("b", 30), ("c", 60)] 1000
          [(1:ℚ)/100, 1/5]).percent_of_grand_total ∧
        (summarize [("a", (10:ℚ)), ("b", 30), ("c", 60)] 1000
          [(1:ℚ)/100, 1/5]).percent_of_grand_total ≤ 100)) :=
  ⟨by with_unfolding_all decide, by with_unfolding_all decide,
    summarize_bounds [("a", (10:ℚ)), ("b", 30), ("c", 60)] 1000 [(1:ℚ)/100, 1/5]
      (by with_unfolding_all decide) (by with_unfolding_all decide)⟩

/-- Claim C10: when all magnitudes are equal (and positive), the `(1-p)`
quantile is the common value, no magnitude is strictly greater than it, and
the captured share is exactly 0 for every percentile in `(0, 1]`. -/
theorem capturedShare_all_equal_eq_zero (series : MagnitudeSeries) (c p : ℚ)
    (hne : series ≠ []) (hall : ∀ v ∈ series.map Prod.snd, v = c) (hc : 0 < c)
    (h0 : 0 < p) (h1 : p ≤ 1) :
    capturedShare series p = 0 := by
  have hvne : series.map Prod.snd ≠ [] := by simpa using hne
  have hq : quantile (series.map Prod.snd) (1 - p) = c :=
    quantile_const hvne hall (by linarith) (by linarith)
  unfold capturedShare
  have hfilt : (series.map Prod.snd).filter
      (fun v => decide (quantile (series.map Prod.snd) (1 - p) < v)) = [] := by
    rw [hq]
    refine List.filter_eq_nil_iff.2 fun v hv => ?_
    rw [hall v hv]
    simp
  rw [hfilt]
  simp

/-- Claim C10 (witness): the constant series {a:7, b:7, c:7} with
percentile 1/2 instantiates the theorem. -/
theorem capturedShare_all_equal_eq_zero_witness :
    ([("a", (7:ℚ)), ("b", 7), ("c", 7)] : MagnitudeSeries) ≠ [] ∧
    (∀ v ∈ ([("a", (7:ℚ)), ("b", 7), ("c", 7)] : MagnitudeSeries).map Prod.snd, v = 7) ∧
    (0:ℚ) < 7 ∧ (0:ℚ) < 1/2 ∧ (1:ℚ)/2 ≤ 1 ∧
    capturedShare [("a", (7:ℚ)), ("b", 7), ("c", 7)] (1/2) = 0 :=
  ⟨by with_unfolding_all decide, by with_unfolding_all decide, by with_unfolding_all decide,
    by with_unfolding_all decide, by with_unfolding_all decide,
    capturedShare_all_equal_eq_zero [("a", (7:ℚ)), ("b", 7), ("c", 7)] 7 (1/2)
      (by with_unfolding_all decide) (by with_unfolding_all decide)
      (by with_unfolding_all decide) (by with_unfolding_all decide)
      (by with_unfolding_all decide)⟩

/-- Claim C6 (counterexample): on the series [("b", 5), ("a", 5)] — a tie in
magnitudes with identifiers out of lexical order — `top(2)` returns
["b", "a"], not the identifier-ascending ["a", "b"]: the sort never consults
the identifier, so ties keep their series order. -/
theorem topN_tie_counterexample :
    topN [("b", (5:ℚ)), ("a", 5)] 2 = ["b", "a"] ∧
    topN [("b", (5:ℚ)), ("a", 5)] 2 ≠ ["a", "b"] := by
  constructor
  · with_unfolding_all decide
  · with_unfolding_all decide

/-- Claim C6 (amended): `top(n)` is the prefix of length `n` of a stable
descending-magnitude sort of the series: magnitudes are non-increasing along
the result, every returned magnitude is at least every excluded one, the
sorted list is a permutation of the series, and — the sort being a pure
function of the series — repeated calls return the same sequence; ties keep
their order in the series rather than being broken by identifier. -/
theorem topN_descending_prefix (series : MagnitudeSeries) (n : ℕ) :
    topN series n = ((List.insertionSort magGE series).take n).map Prod.fst ∧
    (List.insertionSort magGE series).Perm series ∧
    ((List.insertionSort magGE series).take n).Sorted magGE ∧
    ∀ a ∈ (List.insertionSort magGE series).take n,
      ∀ b ∈ (List.insertionSort magGE series).drop n, b.2 ≤ a.2 := by
  refine ⟨rfl, List.perm_insertionSort _ _, ?_, ?_⟩
  · exact (List.sorted_insertionSort magGE series).sublist (List.take_sublist n _)
  · intro a ha b hb
    have hsorted := List.sorted_insertionSort magGE series
    rw [← List.take_append_drop n (List.insertionSort magGE series)] at hsorted
    exact (List.pairwise_append.1 hsorted).2.2 a ha b hb

end ODD
